import Mathlib

/-!
Shallow embedding of `src/scraper.py` (class `GovInfoScraper`) and a
verification of the spec's testable properties against it.

Modelling conventions:
* Python strings are `List Char`, byte strings are `List Nat` (byte values).
* The network is an explicit environment of response-valued functions
  (`Env`): one for the streaming probe request issued by `validate_url`
  and one for the full-body request issued by `download_bill_from_url`.
  A transport failure (`requests.exceptions.RequestException`) is the
  `Except.error` case, carrying the exception message.
* The filesystem is the list of file paths that currently exist.
* The progress ledger file is modelled twice, at the two levels the code
  touches it: as the parsed list of entries (for the orchestrator), and as
  a raw document for `load_progress` / `save_progress`.
-/

abbrev Str := List Char

/-- Does the second list start with the first?  Models Python
`startswith` on character lists. -/
def startsWithL : Str → Str → Bool
  | [], _ => true
  | _ :: _, [] => false
  | a :: as, b :: bs => a == b && startsWithL as bs

/-- Substring containment: models Python's `in` operator on strings
(`needle in hay`). -/
def containsSub (needle : Str) : Str → Bool
  | [] => startsWithL needle []
  | c :: rest => startsWithL needle (c :: rest) || containsSub needle rest

/-- Models `str.lower()` (the content types involved are ASCII). -/
def lowerStr (s : Str) : Str := s.map Char.toLower

/-- An HTTP response as seen by `validate_url` (scraper.py line 75):
status code, the `content-type` header (`''` when the header is absent,
matching `response.headers.get('content-type', '')`), and the raw body
bytes. -/
structure Response where
  status : Nat
  contentType : Str
  body : List Nat
deriving DecidableEq

/-- The five signature bytes of `b'%PDF-'`. -/
def pdfSig : List Nat := [37, 80, 68, 70, 45]

def msgNotValidPdf : Str := "Not a valid PDF file".data

def msgWrongCt (ct : Str) : Str :=
  "Not a PDF file (content-type: ".data ++ ct ++ ")".data

def msgNotFound : Str := "Bill not found (404)".data

def msgUnexpected (st : Nat) : Str :=
  "Unexpected status code: ".data ++ (Nat.repr st).data

def msgTransport (e : Str) : Str := "Error checking URL: ".data ++ e

/-- `validate_url` (scraper.py lines 68-93).  The input is the outcome of
`requests.get(url, stream=True)`: either a raised `RequestException`
(with its message) or a response.  `response.raw.read(5)` returns the
first (at most) five body bytes, and `startswith(b'%PDF-')` on an
at-most-five-byte string is equality with the signature. -/
def validate_url : Except Str Response → Bool × Str
  | .error e => (false, msgTransport e)
  | .ok r =>
    if r.status = 200 then
      let ct := lowerStr r.contentType
      if containsSub "application/pdf".data ct then
        if r.body.take 5 = pdfSig then (true, [])
        else (false, msgNotValidPdf)
      else (false, msgWrongCt ct)
    else if r.status = 404 then (false, msgNotFound)
    else (false, msgUnexpected r.status)

/-! ### `urllib.parse.urlparse(url).path` and `extract_bill_id_from_url`

`extract_bill_id_from_url` (scraper.py lines 95-99) is
`os.path.splitext(os.path.basename(urlparse(url).path))[0]` (POSIX path
semantics, separator `'/'`).  The model of `urlparse(...).path` follows
CPython's `urlsplit`: drop the fragment (first `'#'`), strip a leading
`scheme:` when the text before the first `':'` is a nonempty run of
scheme characters starting with a letter, strip a `//netloc` up to the
next `'/'` or `'?'`, and drop the query (first `'?'`). -/

def dropFragment (l : Str) : Str := l.takeWhile (fun c => c != '#')

def isSchemeChar (c : Char) : Bool := c.isAlphanum || c == '+' || c == '-' || c == '.'

def headAlpha : Str → Bool
  | [] => false
  | c :: _ => c.isAlpha

def splitScheme (l : Str) : Str :=
  let pre := l.takeWhile (fun c => c != ':')
  if pre.length < l.length ∧ pre ≠ [] ∧ pre.all isSchemeChar = true ∧ headAlpha pre = true then
    l.drop (pre.length + 1)
  else l

def dropNetloc (l : Str) : Str :=
  if startsWithL "//".data l then
    (l.drop 2).dropWhile (fun c => !(c == '/' || c == '?'))
  else l

def dropQuery (l : Str) : Str := l.takeWhile (fun c => c != '?')

def urlparsePath (url : Str) : Str :=
  dropQuery (dropNetloc (splitScheme (dropFragment url)))

/-- `os.path.basename`: everything after the last `'/'`. -/
def basename (l : Str) : Str :=
  l.foldl (fun acc c => if c = '/' then [] else acc ++ [c]) []

/-- The root part of `os.path.splitext`: drop the last extension.  The
split happens at the last `'.'`, provided some character strictly before
that `'.'` is not itself a `'.'` (so `".bashrc"`-style names keep their
dot). -/
def splitextRoot (name : Str) : Str :=
  let r := name.reverse
  let e := r.takeWhile (fun c => c != '.')
  let rest := r.drop e.length
  if rest = [] then name
  else if (rest.drop 1).any (fun c => c != '.') then (rest.drop 1).reverse
  else name

/-- `extract_bill_id_from_url` (scraper.py lines 95-99). -/
def extract_bill_id_from_url (url : Str) : Str :=
  splitextRoot (basename (urlparsePath url))

/-- The final path segment, written independently of `basename`'s
left-fold (used to state claim C10 against the source definition). -/
def lastSegment (l : Str) : Str :=
  (l.reverse.takeWhile (fun c => c != '/')).reverse

/-! ### Identifiers and locators -/

def base_url : Str := "https://www.govinfo.gov".data

/-- `self.bill_types` (scraper.py lines 21-30). -/
def bill_types : List Str :=
  ["hconres".data, "hjres".data, "hr".data, "hres".data,
   "s".data, "sconres".data, "sjres".data, "sres".data]

/-- `self.bill_versions` (scraper.py lines 32-42). -/
def bill_versions : List Str :=
  ["ih".data, "eh".data, "rh".data, "rfs".data, "is".data,
   "es".data, "rs".data, "ats".data, "enr".data]

def digitChar (d : Nat) : Char := Char.ofNat (48 + d)

/-- Decimal rendering, fuel-based so the kernel can evaluate it; the
fuel `n + 1` always suffices since the argument strictly decreases. -/
def natDigsGo : Nat → Nat → Str
  | 0, _ => []
  | fuel + 1, n =>
    if n < 10 then [digitChar n]
    else natDigsGo fuel (n / 10) ++ [digitChar (n % 10)]

/-- Decimal rendering of a natural number, as Python's f-string does for
a nonnegative `int`. -/
def natDigs (n : Nat) : Str := natDigsGo (n + 1) n

/-- `bill_id = f"BILLS-{congress}{bill_type}{number}{version}"`
(scraper.py line 106). -/
def mkBillId (congress billType : Str) (number : Nat) (version : Str) : Str :=
  "BILLS-".data ++ congress ++ billType ++ natDigs number ++ version

/-- `url = f"{self.base_url}/content/pkg/{bill_id}/pdf/{bill_id}.pdf"`
(scraper.py line 107). -/
def billPdfUrl (billId : Str) : Str :=
  base_url ++ "/content/pkg/".data ++ billId ++ "/pdf/".data ++ billId ++ ".pdf".data

/-! ### The progress ledger -/

/-- One element of the `results` list persisted in
`downloads/progress.json`: the dict built at scraper.py lines 133-137 /
200-204, with `files` an insertion-ordered format ↦ path mapping. -/
structure LedgerEntry where
  bill_id : Str
  title : Str
  files : List (Str × Str)
deriving DecidableEq

/-- The parsed content of the progress file, at the granularity
`load_progress` distinguishes: `json.load` either raises
`json.JSONDecodeError` (`malformed`), or returns a list of entry-shaped
objects (`entriesDoc`), or returns some other JSON value (`otherJson`,
e.g. the file text `[42]`). -/
inductive LedgerDoc where
  | entriesDoc : List LedgerEntry → LedgerDoc
  | otherJson : LedgerDoc
  | malformed : LedgerDoc
deriving DecidableEq

/-- What `load_progress` hands back to its callers: either a list of
entries or some other JSON value (which Python passes along untyped). -/
inductive Loaded where
  | entries : List LedgerEntry → Loaded
  | other : Loaded
deriving DecidableEq

/-- `load_progress` (scraper.py lines 46-55): the input is `none` when
`downloads/progress.json` does not exist.  Only `json.JSONDecodeError`
is caught (returning `[]` after printing); a successfully parsed value
is returned as-is, whatever its shape. -/
def load_progress : Option LedgerDoc → Loaded
  | none => .entries []
  | some (.entriesDoc es) => .entries es
  | some .otherJson => .other
  | some .malformed => .entries []

/-- `get_downloaded_bills` (scraper.py lines 63-66):
`{result['bill_id'] for result in progress}`.  On a non-entry-shaped
value the comprehension raises (`TypeError`/`KeyError`), modelled as
`none`. -/
def get_downloaded_bills : Loaded → Option (List Str)
  | .entries es => some (es.map LedgerEntry.bill_id)
  | .other => none

/-- The raw ledger-file contents observable while `save_progress`
(scraper.py lines 57-61) runs: `open(progress_file, 'w')` truncates the
file to empty immediately, then `json.dump` streams the serialized text,
so an interruption can leave any prefix of the new text on disk. -/
def save_progress_states (newText : Str) : List Str :=
  (List.range (newText.length + 1)).map fun k => newText.take k

/-- An overwrite of `oldText` by `newText` is atomic when no observable
intermediate state differs from both. -/
def atomicOverwrite (oldText newText : Str) : Prop :=
  ∀ s ∈ save_progress_states newText, s = oldText ∨ s = newText

/-! ### Fetcher (`download_bill_from_url`, `download_bill`) -/

/-- The two network entry points, as deterministic functions of the URL:
`probe` is `requests.get(url, stream=True)` in `validate_url`, `fetch`
is `requests.get(url)` in `download_bill_from_url`, yielding a status
code and the response text/bytes.  `Except.error` is a raised
`RequestException` with its message. -/
structure Env where
  probe : Str → Except Str Response
  fetch : Str → Except Str (Nat × Str)

def pdfF : Str := "pdf".data
def htmF : Str := "htm".data
def xmlF : Str := "xml".data

/-- The extension chosen at scraper.py lines 167-169: `htm` downloads
are saved as `.html`, every other format tag is used verbatim. -/
def extOf (fmt : Str) : Str := if fmt = htmF then "html".data else fmt

/-- The storage path computed at scraper.py lines 163-171:
`downloads/<bill_id>/<format>/<bill_id>.<ext>` (POSIX `os.path.join`). -/
def filePath (billId fmt : Str) : Str :=
  "downloads/".data ++ billId ++ "/".data ++ fmt ++ "/".data
    ++ billId ++ ".".data ++ extOf fmt

/-- Result of one `download_bill_from_url` call: the returned path (or
`None`), the filesystem afterwards, and the URLs actually requested. -/
structure FetchOut where
  path? : Option Str
  fs : List Str
  netlog : List Str
deriving DecidableEq

/-- `download_bill_from_url` (scraper.py lines 161-196).  When
`skip_existing` is set and the path exists it is returned with no
request.  Otherwise `requests.get(url)` runs; `raise_for_status()`
raises for any 4xx/5xx status, and the file is written (from the fully
buffered response) only on a non-raising response. -/
def download_bill_from_url (env : Env) (fs : List Str)
    (url billId fmt : Str) (skipExisting : Bool) : FetchOut :=
  let p := filePath billId fmt
  if skipExisting ∧ p ∈ fs then ⟨some p, fs, []⟩
  else
    match env.fetch url with
    | .error _ => ⟨none, fs, [url]⟩
    | .ok (st, _) =>
      if 400 ≤ st ∧ st < 600 then ⟨none, fs, [url]⟩
      else ⟨some p, p :: fs, [url]⟩

/-- The `bill_data` dict handed to `download_bill`; the orchestrator
(scraper.py lines 133-137) populates only `bill_id`, `pdf_url` and
`title`. -/
structure BillData where
  bill_id : Str
  title : Str
  pdf_url : Option Str
  html_url : Option Str
  xml_url : Option Str
deriving DecidableEq

structure FmtAcc where
  fs : List Str
  netlog : List Str
  files : List (Str × Str)
deriving DecidableEq

/-- One iteration of the `format_map` loop in `download_bill`
(scraper.py lines 213-223): skip absent URL keys, otherwise attempt the
download and record the file on success. -/
def tryFormat (env : Env) (sk : Bool) (billId : Str)
    (acc : FmtAcc) (u? : Option Str) (fmt : Str) : FmtAcc :=
  match u? with
  | none => acc
  | some u =>
    let o := download_bill_from_url env acc.fs u billId fmt sk
    match o.path? with
    | some p => ⟨o.fs, acc.netlog ++ o.netlog, acc.files ++ [(fmt, p)]⟩
    | none => ⟨o.fs, acc.netlog ++ o.netlog, acc.files⟩

/-- `download_bill` (scraper.py lines 198-225): formats are attempted in
`format_map` order (pdf, htm, xml); the result dict is returned only if
at least one format succeeded. -/
def download_bill (env : Env) (fs : List Str) (bd : BillData) (sk : Bool) :
    Option LedgerEntry × FmtAcc :=
  let a1 := tryFormat env sk bd.bill_id ⟨fs, [], []⟩ bd.pdf_url pdfF
  let a2 := tryFormat env sk bd.bill_id a1 bd.html_url htmF
  let a3 := tryFormat env sk bd.bill_id a2 bd.xml_url xmlF
  if a3.files = [] then (none, a3) else (some ⟨bd.bill_id, bd.title, a3.files⟩, a3)

/-! ### Orchestrator (`download_bills_from_urls`, `generate_bill_urls`) -/

def mkTitle (billId : Str) : Str := "Bill ".data ++ billId

/-- The orchestrator's running state: the in-memory `all_results` list,
the filesystem, the URLs requested by the fetcher so far, and the
argument of every `save_progress` call made so far. -/
structure RunState where
  results : List LedgerEntry
  fs : List Str
  netlog : List Str
  savelog : List (List LedgerEntry)
deriving DecidableEq

/-- The `bill_data` dict built at scraper.py lines 133-137. -/
def mkBillData (billId url : Str) : BillData :=
  ⟨billId, mkTitle billId, some url, none, none⟩

/-- One iteration of the URL loop in `download_bills_from_urls`
(scraper.py lines 123-152).  `d` is the `downloaded_bills` set computed
once at run start (it is never updated inside the loop).  On success the
entry is appended and `save_progress(all_results)` is called with the
full accumulated list. -/
def procUrl (env : Env) (d : List Str) (sk : Bool)
    (st : RunState) (url : Str) : RunState :=
  let b := extract_bill_id_from_url url
  if sk ∧ b ∈ d then st
  else
    match download_bill env st.fs (mkBillData b url) sk with
    | (some e, o) =>
      ⟨st.results ++ [e], o.fs, st.netlog ++ o.netlog,
        st.savelog ++ [st.results ++ [e]]⟩
    | (none, o) => ⟨st.results, o.fs, st.netlog ++ o.netlog, st.savelog⟩

/-- The URL loop itself. -/
def runGo (env : Env) (d : List Str) (sk : Bool) : List Str → RunState → RunState
  | [], st => st
  | u :: us, st => runGo env d sk us (procUrl env d sk st u)

/-- `download_bills_from_urls` (scraper.py lines 116-159): load the
ledger, derive the completed-identifier set, then process each URL in
order.  `L0` is the entry list parsed from the progress file. -/
def download_bills_from_urls (env : Env) (fs0 : List Str)
    (L0 : List LedgerEntry) (urls : List Str) (sk : Bool) : RunState :=
  runGo env (L0.map LedgerEntry.bill_id) sk urls ⟨L0, fs0, [], []⟩

/-- `generate_bill_urls` (scraper.py lines 101-114): for each number in
`range(start, end + 1)` and each version, build the candidate locator
and keep it iff `validate_url` confirms it. -/
def generate_bill_urls (env : Env) (congress billType : Str)
    (startN endN : Nat) : List Str :=
  (List.range' startN (endN + 1 - startN)).flatMap fun number =>
    bill_versions.filterMap fun version =>
      let url := billPdfUrl (mkBillId congress billType number version)
      if (validate_url (env.probe url)).1 then some url else none

/-- `batch_download_bills` (scraper.py lines 227-238), restricted to the
ledger/filesystem state it threads through the per-type runs: each
`download_bills_from_urls` call reloads the ledger the previous one
saved. -/
def batch_download_bills (env : Env) (congress : Str)
    (startN endN : Nat) (fs0 : List Str) (L0 : List LedgerEntry) : RunState :=
  bill_types.foldl
    (fun st bt =>
      let r := download_bills_from_urls env st.fs st.results
        (generate_bill_urls env congress bt startN endN) true
      ⟨r.results, r.fs, st.netlog ++ r.netlog, st.savelog ++ r.savelog⟩)
    ⟨L0, fs0, [], []⟩

/-! ### Concrete sanity checks on the orchestrator -/

/-- An environment whose full-body fetch always succeeds with status 200
and whose probe always reports 404. -/
def envOkFetch : Env :=
  ⟨fun _ => .ok ⟨404, [], []⟩, fun _ => .ok (200, "x".data)⟩

/-- An environment where every request raises. -/
def envAllFail : Env :=
  ⟨fun _ => .error "boom".data, fun _ => .error "boom".data⟩

def u0 : Str := "https://x/a.pdf".data
/-- Characters that keep an identifier inert for URL-parsing, basename
splitting and extension stripping. -/
def goodIdChar (c : Char) : Bool := !(c == '/' || c == '.' || c == '?' || c == '#')

/-- Does a full-body request end in a transport failure or a status that
`raise_for_status()` raises on (4xx/5xx)? -/
def fetchBad : Except Str (Nat × Str) → Bool
  | .error _ => true
  | .ok (st, _) => decide (400 ≤ st ∧ st < 600)

/-- The entry the orchestrator appends for a URL whose pdf download
returned a path. -/
def mkEntry (b : Str) : LedgerEntry :=
  ⟨b, mkTitle b, [(pdfF, filePath b pdfF)]⟩

/-! ### General helper lemmas -/

theorem takeWhile_all {p : Char → Bool} :
    ∀ l : Str, (∀ c ∈ l, p c = true) → l.takeWhile p = l := by
  intro l h
  induction l with
  | nil => rfl
  | cons c cs ih =>
    have hc : p c = true := h c (List.mem_cons_self c cs)
    simp only [List.takeWhile_cons, hc, if_true]
    rw [ih fun x hx => h x (List.mem_cons_of_mem c hx)]

theorem takeWhile_append_cons {p : Char → Bool} (a : Str) (x : Char) (b : Str)
    (ha : ∀ c ∈ a, p c = true) (hx : p x = false) :
    (a ++ x :: b).takeWhile p = a := by
  induction a with
  | nil => simp [List.takeWhile_cons, hx]
  | cons c cs ih =>
    have hc : p c = true := ha c (List.mem_cons_self c cs)
    simp only [List.cons_append, List.takeWhile_cons, hc, if_true]
    rw [ih fun y hy => ha y (List.mem_cons_of_mem c hy)]

theorem dropWhile_append_cons {p : Char → Bool} (a : Str) (x : Char) (b : Str)
    (ha : ∀ c ∈ a, p c = true) (hx : p x = false) :
    (a ++ x :: b).dropWhile p = x :: b := by
  induction a with
  | nil => simp [List.dropWhile_cons, hx]
  | cons c cs ih =>
    have hc : p c = true := ha c (List.mem_cons_self c cs)
    simp only [List.cons_append, List.dropWhile_cons, hc, if_true]
    exact ih fun y hy => ha y (List.mem_cons_of_mem c hy)

theorem basename_append_slash (a b : Str) :
    basename (a ++ '/' :: b) = basename b := by
  simp [basename, List.foldl_append]

theorem basename_foldl_no_slash :
    ∀ (b : Str) (acc : Str), (∀ c ∈ b, c ≠ '/') →
      b.foldl (fun acc c => if c = '/' then [] else acc ++ [c]) acc = acc ++ b := by
  intro b
  induction b with
  | nil => intro acc _; simp
  | cons c cs ih =>
    intro acc h
    have hc : c ≠ '/' := h c (List.mem_cons_self c cs)
    simp only [List.foldl_cons, if_neg hc]
    rw [ih (acc ++ [c]) fun y hy => h y (List.mem_cons_of_mem c hy)]
    simp

theorem basename_no_slash (b : Str) (h : ∀ c ∈ b, c ≠ '/') : basename b = b := by
  simpa [basename] using basename_foldl_no_slash b [] h

theorem basename_eq_lastSegment : ∀ l : Str, basename l = lastSegment l := by
  intro l
  induction l using List.reverseRecOn with
  | nil => rfl
  | append_singleton l c ih =>
    by_cases hc : c = '/'
    · subst hc
      simp [basename, List.foldl_append, lastSegment]
    · have hcb : (c != '/') = true := by simpa using hc
      simp only [basename, List.foldl_append, List.foldl_cons, List.foldl_nil, if_neg hc,
        lastSegment, List.reverse_append, List.reverse_cons, List.reverse_nil,
        List.nil_append, List.cons_append, List.takeWhile_cons, hcb, if_true,
        List.reverse_cons]
      rw [← basename, ← lastSegment, ih]

theorem splitextRoot_ext (id : Str) (hdot : ∀ c ∈ id, c ≠ '.') (hne : id ≠ []) :
    splitextRoot (id ++ ".pdf".data) = id := by
  have hrev : (id ++ ".pdf".data).reverse = ['f', 'd', 'p'] ++ '.' :: id.reverse := by
    rw [List.reverse_append]; rfl
  have htw : (['f', 'd', 'p'] ++ '.' :: id.reverse).takeWhile (fun c => c != '.')
      = ['f', 'd', 'p'] :=
    takeWhile_append_cons _ _ _ (by decide) (by decide)
  have hdrop : (['f', 'd', 'p'] ++ '.' :: id.reverse).drop 3 = '.' :: id.reverse := rfl
  have hany : (('.' :: id.reverse).drop 1).any (fun c => c != '.') = true := by
    obtain ⟨c, cs, rfl⟩ := List.exists_cons_of_ne_nil hne
    refine List.any_eq_true.mpr ⟨c, ?_, ?_⟩
    · simp
    · simpa using hdot c (List.mem_cons_self c cs)
  simp only [splitextRoot, hrev, htw, List.length_cons, List.length_nil, hdrop]
  rw [if_neg (by simp : ¬('.' :: id.reverse = []))]
  rw [if_pos hany]
  simp

/-! ### The locator round-trip -/


theorem goodIdChar_spec {c : Char} (h : goodIdChar c = true) :
    c ≠ '/' ∧ c ≠ '.' ∧ c ≠ '?' ∧ c ≠ '#' := by
  simpa [goodIdChar, and_assoc] using h

theorem billPdfUrl_shape (id : Str) :
    billPdfUrl id = "https".data ++ ':' ::
      ("//www.govinfo.gov".data ++ ("/content/pkg/".data
        ++ (id ++ ("/pdf/".data ++ (id ++ ".pdf".data))))) := by
  simp only [billPdfUrl, base_url, List.append_assoc]
  rfl

theorem splitScheme_https (T : Str) :
    splitScheme ("https".data ++ ':' :: T) = T := by
  have htw : ("https".data ++ ':' :: T).takeWhile (fun c => c != ':') = "https".data :=
    takeWhile_append_cons _ _ _ (by decide) (by decide)
  simp only [splitScheme, htw]
  rw [if_pos]
  · rfl
  · refine ⟨?_, by decide, by decide, by decide⟩
    simp only [List.length_append, List.length_cons]
    omega

theorem dropNetloc_govinfo (Z : Str) :
    dropNetloc ("//www.govinfo.gov".data ++ ('/' :: Z)) = '/' :: Z := by
  have hsw : startsWithL "//".data ("//www.govinfo.gov".data ++ ('/' :: Z)) = true := rfl
  have hdrop : ("//www.govinfo.gov".data ++ ('/' :: Z)).drop 2
      = "www.govinfo.gov".data ++ ('/' :: Z) := rfl
  rw [dropNetloc, if_pos hsw, hdrop]
  exact dropWhile_append_cons _ _ _ (by decide) (by decide)

theorem urlparsePath_billPdfUrl (id : Str)
    (hg : ∀ c ∈ id, goodIdChar c = true) :
    urlparsePath (billPdfUrl id)
      = "/content/pkg/".data ++ (id ++ ("/pdf/".data ++ (id ++ ".pdf".data))) := by
  have hid : ∀ c ∈ id, c ≠ '/' ∧ c ≠ '.' ∧ c ≠ '?' ∧ c ≠ '#' :=
    fun c hc => goodIdChar_spec (hg c hc)
  have hidh : ∀ c ∈ id, (c != '#') = true := fun c h => bne_iff_ne.mpr (hid c h).2.2.2
  have hnf : ∀ c ∈ billPdfUrl id, (c != '#') = true := by
    simp only [billPdfUrl, base_url, List.forall_mem_append]
    exact ⟨⟨⟨⟨⟨by decide, by decide⟩, hidh⟩, by decide⟩, hidh⟩, by decide⟩
  have h1 : dropFragment (billPdfUrl id) = billPdfUrl id := takeWhile_all _ hnf
  have hshape := billPdfUrl_shape id
  have hcons : "/content/pkg/".data ++ (id ++ ("/pdf/".data ++ (id ++ ".pdf".data)))
      = '/' :: ("content/pkg/".data ++ (id ++ ("/pdf/".data ++ (id ++ ".pdf".data)))) := rfl
  have hidq : ∀ c ∈ id, (c != '?') = true := fun c h => bne_iff_ne.mpr (hid c h).2.2.1
  have hq : ∀ c ∈ "/content/pkg/".data ++ (id ++ ("/pdf/".data ++ (id ++ ".pdf".data))),
      (c != '?') = true := by
    simp only [List.forall_mem_append]
    exact ⟨by decide, hidq, by decide, hidq, by decide⟩
  unfold urlparsePath
  rw [h1, hshape, splitScheme_https, hcons, dropNetloc_govinfo, ← hcons]
  exact takeWhile_all _ hq

theorem extract_roundtrip (id : Str) (hg : ∀ c ∈ id, goodIdChar c = true)
    (hne : id ≠ []) :
    extract_bill_id_from_url (billPdfUrl id) = id := by
  have hid : ∀ c ∈ id, c ≠ '/' ∧ c ≠ '.' ∧ c ≠ '?' ∧ c ≠ '#' :=
    fun c hc => goodIdChar_spec (hg c hc)
  have hY : "/content/pkg/".data ++ (id ++ ("/pdf/".data ++ (id ++ ".pdf".data)))
      = ("/content/pkg/".data ++ id ++ "/pdf".data) ++ '/' :: (id ++ ".pdf".data) := by
    simp only [List.append_assoc]
    rfl
  have hnoslash : ∀ c ∈ id ++ ".pdf".data, c ≠ '/' := by
    intro c hc
    rcases List.mem_append.mp hc with h | h
    · exact (hid c h).1
    · exact (by decide : ∀ c ∈ (".pdf".data : Str), c ≠ '/') c h
  unfold extract_bill_id_from_url
  rw [urlparsePath_billPdfUrl id hg, hY, basename_append_slash,
    basename_no_slash _ hnoslash,
    splitextRoot_ext id (fun c hc => (hid c hc).2.1) hne]

/-! ### Characterizing one fetch and one orchestrator step -/


theorem dbfu_eq_skip (env : Env) (fs : List Str) (url b fmt : Str)
    (h : filePath b fmt ∈ fs) :
    download_bill_from_url env fs url b fmt true = ⟨some (filePath b fmt), fs, []⟩ := by
  simp [download_bill_from_url, h]

theorem dbfu_eq_fail (env : Env) (fs : List Str) (url b fmt : Str) (sk : Bool)
    (hns : ¬(sk = true ∧ filePath b fmt ∈ fs))
    (hb : fetchBad (env.fetch url) = true) :
    download_bill_from_url env fs url b fmt sk = ⟨none, fs, [url]⟩ := by
  unfold download_bill_from_url
  rw [if_neg hns]
  cases hfe : env.fetch url with
  | error e => rfl
  | ok pr =>
    obtain ⟨stc, body⟩ := pr
    have hst : 400 ≤ stc ∧ stc < 600 := by
      rw [hfe] at hb
      simpa [fetchBad] using hb
    simp [hst]

theorem dbfu_eq_write (env : Env) (fs : List Str) (url b fmt : Str) (sk : Bool)
    (hns : ¬(sk = true ∧ filePath b fmt ∈ fs))
    (hg : fetchBad (env.fetch url) = false) :
    download_bill_from_url env fs url b fmt sk
      = ⟨some (filePath b fmt), filePath b fmt :: fs, [url]⟩ := by
  unfold download_bill_from_url
  rw [if_neg hns]
  cases hfe : env.fetch url with
  | error e => rw [hfe] at hg; simp [fetchBad] at hg
  | ok pr =>
    obtain ⟨stc, body⟩ := pr
    have hst : ¬(400 ≤ stc ∧ stc < 600) := by
      rw [hfe] at hg
      simpa [fetchBad] using hg
    simp [hst]

theorem download_bill_pdf_some (env : Env) (fs : List Str) (b url : Str) (sk : Bool)
    (p : Str) (fs' nl : List Str)
    (h : download_bill_from_url env fs url b pdfF sk = ⟨some p, fs', nl⟩) :
    download_bill env fs (mkBillData b url) sk
      = (some ⟨b, mkTitle b, [(pdfF, p)]⟩, ⟨fs', nl, [(pdfF, p)]⟩) := by
  simp [download_bill, mkBillData, tryFormat, h]

theorem download_bill_pdf_none (env : Env) (fs : List Str) (b url : Str) (sk : Bool)
    (fs' nl : List Str)
    (h : download_bill_from_url env fs url b pdfF sk = ⟨none, fs', nl⟩) :
    download_bill env fs (mkBillData b url) sk = (none, ⟨fs', nl, []⟩) := by
  simp [download_bill, mkBillData, tryFormat, h]

theorem procUrl_skip (env : Env) (d : List Str) (st : RunState) (url : Str)
    (h : extract_bill_id_from_url url ∈ d) :
    procUrl env d true st url = st := by
  simp [procUrl, h]

/-- Complete case analysis of one orchestrator iteration with
`skip_existing` enabled. -/
theorem procUrl_trichotomy (env : Env) (d : List Str) (st : RunState) (url : Str) :
    (extract_bill_id_from_url url ∈ d ∧ procUrl env d true st url = st)
  ∨ (extract_bill_id_from_url url ∉ d
      ∧ filePath (extract_bill_id_from_url url) pdfF ∈ st.fs
      ∧ procUrl env d true st url
          = ⟨st.results ++ [mkEntry (extract_bill_id_from_url url)], st.fs, st.netlog,
             st.savelog ++ [st.results ++ [mkEntry (extract_bill_id_from_url url)]]⟩)
  ∨ (extract_bill_id_from_url url ∉ d
      ∧ filePath (extract_bill_id_from_url url) pdfF ∉ st.fs
      ∧ fetchBad (env.fetch url) = false
      ∧ procUrl env d true st url
          = ⟨st.results ++ [mkEntry (extract_bill_id_from_url url)],
             filePath (extract_bill_id_from_url url) pdfF :: st.fs,
             st.netlog ++ [url],
             st.savelog ++ [st.results ++ [mkEntry (extract_bill_id_from_url url)]]⟩)
  ∨ (extract_bill_id_from_url url ∉ d
      ∧ filePath (extract_bill_id_from_url url) pdfF ∉ st.fs
      ∧ fetchBad (env.fetch url) = true
      ∧ procUrl env d true st url
          = ⟨st.results, st.fs, st.netlog ++ [url], st.savelog⟩) := by
  by_cases hbd : extract_bill_id_from_url url ∈ d
  · exact Or.inl ⟨hbd, procUrl_skip env d st url hbd⟩
  by_cases hp : filePath (extract_bill_id_from_url url) pdfF ∈ st.fs
  · refine Or.inr (Or.inl ⟨hbd, hp, ?_⟩)
    have h1 := dbfu_eq_skip env st.fs url (extract_bill_id_from_url url) pdfF hp
    have h2 := download_bill_pdf_some env st.fs (extract_bill_id_from_url url) url true
      _ _ _ h1
    simp [procUrl, hbd, h2, mkEntry]
  have hns2 : ¬(true = true ∧ filePath (extract_bill_id_from_url url) pdfF ∈ st.fs) :=
    fun h => hp h.2
  by_cases hfb : fetchBad (env.fetch url) = true
  · refine Or.inr (Or.inr (Or.inr ⟨hbd, hp, hfb, ?_⟩))
    have h1 := dbfu_eq_fail env st.fs url (extract_bill_id_from_url url) pdfF true hns2 hfb
    have h2 := download_bill_pdf_none env st.fs (extract_bill_id_from_url url) url true
      _ _ h1
    simp [procUrl, hbd, h2]
  · refine Or.inr (Or.inr (Or.inl ⟨hbd, hp, by simpa using hfb, ?_⟩))
    have h1 := dbfu_eq_write env st.fs url (extract_bill_id_from_url url) pdfF true hns2
      (by simpa using hfb)
    have h2 := download_bill_pdf_some env st.fs (extract_bill_id_from_url url) url true
      _ _ _ h1
    simp [procUrl, hbd, h2, mkEntry]

/-! ### Global run lemmas -/

@[simp] theorem runGo_nil (env : Env) (d : List Str) (sk : Bool) (st : RunState) :
    runGo env d sk [] st = st := rfl

@[simp] theorem runGo_cons (env : Env) (d : List Str) (sk : Bool) (u : Str)
    (us : List Str) (st : RunState) :
    runGo env d sk (u :: us) st = runGo env d sk us (procUrl env d sk st u) := rfl

theorem filePath_inj {a b f : Str} (h : filePath a f = filePath b f) : a = b := by
  have hlen : a.length = b.length := by
    have hl := congrArg List.length h
    simp only [filePath, List.length_append] at hl
    omega
  have h' : "downloads/".data ++ (a ++ ("/".data ++ (f ++ ("/".data
        ++ (a ++ (".".data ++ extOf f))))))
      = "downloads/".data ++ (b ++ ("/".data ++ (f ++ ("/".data
        ++ (b ++ (".".data ++ extOf f)))))) := by
    simpa [filePath, List.append_assoc] using h
  exact (List.append_inj (List.append_cancel_left h') hlen).1

/-- Every entry a run appends comes from a processed URL that was not in
the completed set, and has exactly the shape `mkEntry`. -/
theorem runGo_appended (env : Env) (d : List Str) :
    ∀ (us : List Str) (st : RunState),
      ∃ t, (runGo env d true us st).results = st.results ++ t
        ∧ ∀ e ∈ t, ∃ u, u ∈ us ∧ extract_bill_id_from_url u ∉ d
            ∧ e = mkEntry (extract_bill_id_from_url u) := by
  intro us
  induction us with
  | nil => exact fun st => ⟨[], by simp, by simp⟩
  | cons u rest ih =>
    intro st
    rcases procUrl_trichotomy env d st u with ⟨_, heq⟩ | ⟨hbd, _, heq⟩
      | ⟨hbd, _, _, heq⟩ | ⟨_, _, _, heq⟩
    · obtain ⟨t, h1, h2⟩ := ih st
      refine ⟨t, by simp [heq, h1], fun e he => ?_⟩
      obtain ⟨v, hv, h3, h4⟩ := h2 e he
      exact ⟨v, List.mem_cons_of_mem u hv, h3, h4⟩
    · obtain ⟨t, h1, h2⟩ := ih (procUrl env d true st u)
      refine ⟨mkEntry (extract_bill_id_from_url u) :: t, ?_, fun e he => ?_⟩
      · simp only [runGo_cons]
        rw [h1, heq]
        simp
      · rcases List.mem_cons.mp he with rfl | he'
        · exact ⟨u, List.mem_cons_self u rest, hbd, rfl⟩
        · obtain ⟨v, hv, h3, h4⟩ := h2 e he'
          exact ⟨v, List.mem_cons_of_mem u hv, h3, h4⟩
    · obtain ⟨t, h1, h2⟩ := ih (procUrl env d true st u)
      refine ⟨mkEntry (extract_bill_id_from_url u) :: t, ?_, fun e he => ?_⟩
      · simp only [runGo_cons]
        rw [h1, heq]
        simp
      · rcases List.mem_cons.mp he with rfl | he'
        · exact ⟨u, List.mem_cons_self u rest, hbd, rfl⟩
        · obtain ⟨v, hv, h3, h4⟩ := h2 e he'
          exact ⟨v, List.mem_cons_of_mem u hv, h3, h4⟩
    · obtain ⟨t, h1, h2⟩ := ih (procUrl env d true st u)
      refine ⟨t, ?_, fun e he => ?_⟩
      case _ =>
        simp only [runGo_cons]
        rw [h1, heq]
      obtain ⟨v, hv, h3, h4⟩ := h2 e he
      exact ⟨v, List.mem_cons_of_mem u hv, h3, h4⟩

theorem runGo_results_sub (env : Env) (d : List Str) (us : List Str) (st : RunState) :
    ∀ e ∈ st.results, e ∈ (runGo env d true us st).results := by
  intro e he
  obtain ⟨t, h1, _⟩ := runGo_appended env d us st
  rw [h1]
  exact List.mem_append_left t he

theorem runGo_ids_sub (env : Env) (d : List Str) (us : List Str) (st : RunState) :
    ∀ b ∈ st.results.map LedgerEntry.bill_id,
      b ∈ (runGo env d true us st).results.map LedgerEntry.bill_id := by
  intro b hb
  obtain ⟨e, he, rfl⟩ := List.mem_map.mp hb
  exact List.mem_map.mpr ⟨e, runGo_results_sub env d us st e he, rfl⟩

/-- Every file present after a run was present before it or is the pdf
path of some entry of the final ledger. -/
theorem runGo_fs_sub (env : Env) (d : List Str) :
    ∀ (us : List Str) (st : RunState) (q : Str),
      q ∈ (runGo env d true us st).fs →
        q ∈ st.fs
          ∨ ∃ e, e ∈ (runGo env d true us st).results ∧ q = filePath e.bill_id pdfF := by
  intro us
  induction us with
  | nil => exact fun st q hq => Or.inl hq
  | cons u rest ih =>
    intro st q hq
    rcases procUrl_trichotomy env d st u with ⟨_, heq⟩ | ⟨_, _, heq⟩
      | ⟨_, _, _, heq⟩ | ⟨_, _, _, heq⟩
    · rcases ih (procUrl env d true st u) q (by simpa using hq) with h | ⟨e, he, h⟩
      · exact Or.inl (by rw [heq] at h; exact h)
      · exact Or.inr ⟨e, by simpa using he, h⟩
    · rcases ih (procUrl env d true st u) q (by simpa using hq) with h | ⟨e, he, h⟩
      · exact Or.inl (by rw [heq] at h; exact h)
      · exact Or.inr ⟨e, by simpa using he, h⟩
    · rcases ih (procUrl env d true st u) q (by simpa using hq) with h | ⟨e, he, h⟩
      · rw [heq] at h
        rcases List.mem_cons.mp h with rfl | h'
        · refine Or.inr ⟨mkEntry (extract_bill_id_from_url u), ?_, rfl⟩
          refine runGo_results_sub env d rest (procUrl env d true st u) _ ?_
          rw [heq]
          simp
        · exact Or.inl h'
      · exact Or.inr ⟨e, by simpa using he, h⟩
    · rcases ih (procUrl env d true st u) q (by simpa using hq) with h | ⟨e, he, h⟩
      · exact Or.inl (by rw [heq] at h; exact h)
      · exact Or.inr ⟨e, by simpa using he, h⟩

/-- Every URL the fetcher requested during a run is one of the input
URLs whose extracted identifier was not in the completed set. -/
theorem runGo_netlog (env : Env) (d : List Str) :
    ∀ (us : List Str) (st : RunState) (v : Str),
      v ∈ (runGo env d true us st).netlog →
        v ∈ st.netlog ∨ (v ∈ us ∧ extract_bill_id_from_url v ∉ d) := by
  intro us
  induction us with
  | nil => exact fun st v hv => Or.inl hv
  | cons u rest ih =>
    intro st v hv
    rcases procUrl_trichotomy env d st u with ⟨_, heq⟩ | ⟨hbd, _, heq⟩
      | ⟨hbd, _, _, heq⟩ | ⟨hbd, _, _, heq⟩ <;>
      rcases ih (procUrl env d true st u) v (by simpa using hv) with h | ⟨h1, h2⟩
    · exact Or.inl (by rw [heq] at h; exact h)
    · exact Or.inr ⟨List.mem_cons_of_mem u h1, h2⟩
    · exact Or.inl (by rw [heq] at h; exact h)
    · exact Or.inr ⟨List.mem_cons_of_mem u h1, h2⟩
    · rw [heq] at h
      rcases List.mem_append.mp h with h' | h'
      · exact Or.inl h'
      · have : v = u := by simpa using h'
        subst this
        exact Or.inr ⟨List.mem_cons_self v rest, hbd⟩
    · exact Or.inr ⟨List.mem_cons_of_mem u h1, h2⟩
    · rw [heq] at h
      rcases List.mem_append.mp h with h' | h'
      · exact Or.inl h'
      · have : v = u := by simpa using h'
        subst this
        exact Or.inr ⟨List.mem_cons_self v rest, hbd⟩
    · exact Or.inr ⟨List.mem_cons_of_mem u h1, h2⟩

/-- With `skip_existing` enabled, a URL whose identifier is absent from
the final ledger must have failed its fetch, and its pdf path is absent
from the final filesystem. -/
theorem runGo_fail (env : Env) (d : List Str) :
    ∀ (us : List Str) (st : RunState),
      (∀ b ∈ d, b ∈ st.results.map LedgerEntry.bill_id) →
      ∀ u ∈ us,
        extract_bill_id_from_url u ∉
            (runGo env d true us st).results.map LedgerEntry.bill_id →
          fetchBad (env.fetch u) = true
            ∧ filePath (extract_bill_id_from_url u) pdfF ∉ (runGo env d true us st).fs := by
  intro us
  induction us with
  | nil => intro st _ u hu; exact absurd hu (List.not_mem_nil u)
  | cons u0 rest ih =>
    intro st hd u hu hnot
    have hd1 : ∀ b ∈ d, b ∈ (procUrl env d true st u0).results.map LedgerEntry.bill_id := by
      intro b hb
      rcases procUrl_trichotomy env d st u0 with ⟨_, heq⟩ | ⟨_, _, heq⟩
        | ⟨_, _, _, heq⟩ | ⟨_, _, _, heq⟩
      · rw [heq]
        exact hd b hb
      · simp only [heq, List.map_append, List.mem_append]
        exact Or.inl (hd b hb)
      · simp only [heq, List.map_append, List.mem_append]
        exact Or.inl (hd b hb)
      · simp only [heq]
        exact hd b hb
    rcases List.mem_cons.mp hu with rfl | hu'
    · -- the head URL itself
      have hbd : extract_bill_id_from_url u ∉ d := by
        intro hmem
        exact hnot (runGo_ids_sub env d rest (procUrl env d true st u)
          _ (hd1 _ hmem))
      rcases procUrl_trichotomy env d st u with ⟨hmem, _⟩ | ⟨_, _, heq⟩
        | ⟨_, _, _, heq⟩ | ⟨_, hp, hfb, heq⟩
      · exact absurd hmem hbd
      · exfalso
        apply hnot
        refine runGo_ids_sub env d rest (procUrl env d true st u) _ ?_
        rw [heq]
        simp [mkEntry]
      · exfalso
        apply hnot
        refine runGo_ids_sub env d rest (procUrl env d true st u) _ ?_
        rw [heq]
        simp [mkEntry]
      · refine ⟨hfb, fun hin => ?_⟩
        rcases runGo_fs_sub env d rest (procUrl env d true st u) _
            (by simpa using hin) with h | ⟨e, he, hpe⟩
        · rw [heq] at h
          exact hp h
        · apply hnot
          have hbe : extract_bill_id_from_url u = e.bill_id := filePath_inj hpe
          rw [hbe]
          exact List.mem_map.mpr ⟨e, by simpa using he, rfl⟩
    · exact ih (procUrl env d true st u0) hd1 u hu' (by simpa using hnot)

/-- If every URL is either already completed or doomed to fail against
the current filesystem, the run changes neither ledger nor files. -/
theorem runGo_stable (env : Env) (d : List Str) :
    ∀ (us : List Str) (st : RunState),
      (∀ u ∈ us, extract_bill_id_from_url u ∈ d
          ∨ (fetchBad (env.fetch u) = true
              ∧ filePath (extract_bill_id_from_url u) pdfF ∉ st.fs)) →
      (runGo env d true us st).results = st.results
        ∧ (runGo env d true us st).fs = st.fs := by
  intro us
  induction us with
  | nil => exact fun st _ => ⟨rfl, rfl⟩
  | cons u0 rest ih =>
    intro st h
    rcases procUrl_trichotomy env d st u0 with ⟨_, heq⟩ | ⟨hbd, hp, heq⟩
      | ⟨hbd, hp, hfb, heq⟩ | ⟨_, _, _, heq⟩
    · have := ih st fun u hu => (h u (List.mem_cons_of_mem u0 hu))
      simpa [heq] using this
    · rcases h u0 (List.mem_cons_self u0 rest) with hmem | ⟨_, hnp⟩
      · exact absurd hmem hbd
      · exact absurd hp hnp
    · rcases h u0 (List.mem_cons_self u0 rest) with hmem | ⟨hfb', _⟩
      · exact absurd hmem hbd
      · rw [hfb'] at hfb
        exact absurd hfb (by simp)
    · have hst1 : (procUrl env d true st u0).results = st.results
          ∧ (procUrl env d true st u0).fs = st.fs := by
        rw [heq]
        exact ⟨rfl, rfl⟩
      have := ih (procUrl env d true st u0) fun u hu => by
        rcases h u (List.mem_cons_of_mem u0 hu) with hmem | ⟨hb, hnp⟩
        · exact Or.inl hmem
        · exact Or.inr ⟨hb, by rw [hst1.2]; exact hnp⟩
      simp only [runGo_cons]
      rw [this.1, this.2, hst1.1, hst1.2]
      exact ⟨rfl, rfl⟩

/-- With `skip_existing` enabled, pairwise-distinct extracted identifiers
among the URLs, and a duplicate-free starting ledger whose identifiers
all sit in the completed set, the run preserves freedom from duplicate
identifiers. -/
theorem runGo_nodup (env : Env) (d : List Str) :
    ∀ (us : List Str) (st : RunState),
      (us.map extract_bill_id_from_url).Nodup →
      (st.results.map LedgerEntry.bill_id).Nodup →
      (∀ u ∈ us, extract_bill_id_from_url u ∈ d
          ∨ extract_bill_id_from_url u ∉ st.results.map LedgerEntry.bill_id) →
      ((runGo env d true us st).results.map LedgerEntry.bill_id).Nodup := by
  intro us
  induction us with
  | nil => exact fun st _ hst _ => hst
  | cons u0 rest ih =>
    intro st hus hst h
    have hus' := List.nodup_cons.mp hus
    rcases procUrl_trichotomy env d st u0 with ⟨_, heq⟩ | ⟨hbd, _, heq⟩
      | ⟨hbd, _, _, heq⟩ | ⟨_, _, _, heq⟩
    · refine ih (procUrl env d true st u0) hus'.2 (by rw [heq]; exact hst) ?_
      intro u hu
      rw [heq]
      exact h u (List.mem_cons_of_mem u0 hu)
    · have hb0 : extract_bill_id_from_url u0 ∉ st.results.map LedgerEntry.bill_id :=
        (h u0 (List.mem_cons_self u0 rest)).resolve_left hbd
      refine ih (procUrl env d true st u0) hus'.2 ?_ ?_
      · rw [heq]
        simp [List.map_append, List.nodup_append, mkEntry, hst, hb0]
      · intro u hu
        rcases h u (List.mem_cons_of_mem u0 hu) with hmem | hnot
        · exact Or.inl hmem
        · refine Or.inr ?_
          rw [heq]
          simp only [List.map_append, List.mem_append, mkEntry]
          rintro (hc | hc)
          · exact hnot hc
          · have : extract_bill_id_from_url u = extract_bill_id_from_url u0 := by
              simpa using hc
            exact hus'.1 (this ▸ List.mem_map_of_mem extract_bill_id_from_url hu)
    · have hb0 : extract_bill_id_from_url u0 ∉ st.results.map LedgerEntry.bill_id :=
        (h u0 (List.mem_cons_self u0 rest)).resolve_left hbd
      refine ih (procUrl env d true st u0) hus'.2 ?_ ?_
      · rw [heq]
        simp [List.map_append, List.nodup_append, mkEntry, hst, hb0]
      · intro u hu
        rcases h u (List.mem_cons_of_mem u0 hu) with hmem | hnot
        · exact Or.inl hmem
        · refine Or.inr ?_
          rw [heq]
          simp only [List.map_append, List.mem_append, mkEntry]
          rintro (hc | hc)
          · exact hnot hc
          · have : extract_bill_id_from_url u = extract_bill_id_from_url u0 := by
              simpa using hc
            exact hus'.1 (this ▸ List.mem_map_of_mem extract_bill_id_from_url hu)
    · refine ih (procUrl env d true st u0) hus'.2 (by rw [heq]; exact hst) ?_
      intro u hu
      rw [heq]
      exact h u (List.mem_cons_of_mem u0 hu)

/-- Every `save_progress` call during a run receives the full list
accumulated so far (a take-prefix of the final ledger), and the last
save of the run is exactly the final ledger. -/
theorem runGo_savelog (env : Env) (d : List Str) :
    ∀ (us : List Str) (st : RunState),
      (∀ s ∈ st.savelog, ∃ k, k ≤ st.results.length ∧ s = st.results.take k) →
      (st.savelog = [] ∨ st.savelog.getLast? = some st.results) →
      (∀ s ∈ (runGo env d true us st).savelog,
          ∃ k, k ≤ (runGo env d true us st).results.length
            ∧ s = (runGo env d true us st).results.take k)
        ∧ ((runGo env d true us st).savelog = []
            ∨ (runGo env d true us st).savelog.getLast?
                = some (runGo env d true us st).results) := by
  intro us
  induction us with
  | nil => exact fun st h1 h2 => ⟨h1, h2⟩
  | cons u0 rest ih =>
    intro st h1 h2
    rcases procUrl_trichotomy env d st u0 with ⟨_, heq⟩ | ⟨_, _, heq⟩
      | ⟨_, _, _, heq⟩ | ⟨_, _, _, heq⟩
    · exact ih (procUrl env d true st u0) (by rw [heq]; exact h1) (by rw [heq]; exact h2)
    · refine ih (procUrl env d true st u0) ?_ ?_
      · rw [heq]
        intro s hs
        rcases List.mem_append.mp hs with hs' | hs'
        · obtain ⟨k, hk, hsk⟩ := h1 s hs'
          refine ⟨k, ?_, ?_⟩
          · simp only [List.length_append]
            omega
          · rw [hsk, List.take_append_of_le_length hk]
        · have hseq : s = st.results ++ [mkEntry (extract_bill_id_from_url u0)] := by
            simpa using hs'
          refine ⟨(st.results ++ [mkEntry (extract_bill_id_from_url u0)]).length,
            le_refl _, ?_⟩
          rw [hseq, List.take_length]
      · rw [heq]
        right
        simp
    · refine ih (procUrl env d true st u0) ?_ ?_
      · rw [heq]
        intro s hs
        rcases List.mem_append.mp hs with hs' | hs'
        · obtain ⟨k, hk, hsk⟩ := h1 s hs'
          refine ⟨k, ?_, ?_⟩
          · simp only [List.length_append]
            omega
          · rw [hsk, List.take_append_of_le_length hk]
        · have hseq : s = st.results ++ [mkEntry (extract_bill_id_from_url u0)] := by
            simpa using hs'
          refine ⟨(st.results ++ [mkEntry (extract_bill_id_from_url u0)]).length,
            le_refl _, ?_⟩
          rw [hseq, List.take_length]
      · rw [heq]
        right
        simp
    · exact ih (procUrl env d true st u0) (by rw [heq]; exact h1) (by rw [heq]; exact h2)

theorem runGo_netlog_mono (env : Env) (d : List Str) :
    ∀ (us : List Str) (st : RunState),
      ∃ t, (runGo env d true us st).netlog = st.netlog ++ t := by
  intro us
  induction us with
  | nil => exact fun st => ⟨[], by simp⟩
  | cons u0 rest ih =>
    intro st
    rcases procUrl_trichotomy env d st u0 with ⟨_, heq⟩ | ⟨_, _, heq⟩
      | ⟨_, _, _, heq⟩ | ⟨_, _, _, heq⟩ <;>
      obtain ⟨t, ht⟩ := ih (procUrl env d true st u0)
    · refine ⟨t, ?_⟩
      simp only [runGo_cons]
      rw [ht, heq]
    · refine ⟨t, ?_⟩
      simp only [runGo_cons]
      rw [ht, heq]
    · refine ⟨[u0] ++ t, ?_⟩
      simp only [runGo_cons]
      rw [ht, heq]
      simp
    · refine ⟨[u0] ++ t, ?_⟩
      simp only [runGo_cons]
      rw [ht, heq]
      simp

/-- An identifier absent from the ledger, whose pdf path is absent from
the filesystem, and all of whose URLs fail their fetch, stays absent
from both. -/
theorem runGo_failed_id (env : Env) (d : List Str) :
    ∀ (us : List Str) (st : RunState) (b : Str),
      b ∉ st.results.map LedgerEntry.bill_id →
      filePath b pdfF ∉ st.fs →
      (∀ v ∈ us, extract_bill_id_from_url v = b → fetchBad (env.fetch v) = true) →
      b ∉ (runGo env d true us st).results.map LedgerEntry.bill_id
        ∧ filePath b pdfF ∉ (runGo env d true us st).fs := by
  intro us
  induction us with
  | nil => exact fun st b h1 h2 _ => ⟨h1, h2⟩
  | cons u0 rest ih =>
    intro st b h1 h2 hv
    have hv' : ∀ v ∈ rest, extract_bill_id_from_url v = b → fetchBad (env.fetch v) = true :=
      fun v hvr => hv v (List.mem_cons_of_mem u0 hvr)
    rcases procUrl_trichotomy env d st u0 with ⟨_, heq⟩ | ⟨_, hp, heq⟩
      | ⟨_, hp, hfb, heq⟩ | ⟨_, _, _, heq⟩
    · exact ih (procUrl env d true st u0) b (by rw [heq]; exact h1)
        (by rw [heq]; exact h2) hv'
    · have hne : extract_bill_id_from_url u0 ≠ b := by
        intro hb
        rw [hb] at hp
        exact h2 hp
      refine ih (procUrl env d true st u0) b ?_ ?_ hv'
      · rw [heq]
        simp only [List.map_append, List.mem_append, mkEntry]
        rintro (hc | hc)
        · exact h1 hc
        · have hcc : b = extract_bill_id_from_url u0 := by simpa using hc
          exact hne hcc.symm
      · rw [heq]
        exact h2
    · have hne : extract_bill_id_from_url u0 ≠ b := by
        intro hb
        have := hv u0 (List.mem_cons_self u0 rest) hb
        rw [this] at hfb
        exact absurd hfb (by simp)
      refine ih (procUrl env d true st u0) b ?_ ?_ hv'
      · rw [heq]
        simp only [List.map_append, List.mem_append, mkEntry]
        rintro (hc | hc)
        · exact h1 hc
        · have hcc : b = extract_bill_id_from_url u0 := by simpa using hc
          exact hne hcc.symm
      · rw [heq]
        intro hc
        rcases List.mem_cons.mp hc with hc' | hc'
        · exact hne (filePath_inj hc'.symm)
        · exact h2 hc'
    · exact ih (procUrl env d true st u0) b (by rw [heq]; exact h1)
        (by rw [heq]; exact h2) hv'

/-- A URL, not yet completed, whose identifier's URLs all fail, is
actually requested during the run (it is re-attempted, not skipped). -/
theorem runGo_retries (env : Env) (d : List Str) :
    ∀ (us : List Str) (st : RunState) (u : Str),
      u ∈ us →
      extract_bill_id_from_url u ∉ d →
      filePath (extract_bill_id_from_url u) pdfF ∉ st.fs →
      (∀ v ∈ us, extract_bill_id_from_url v = extract_bill_id_from_url u →
          fetchBad (env.fetch v) = true) →
      u ∈ (runGo env d true us st).netlog := by
  intro us
  induction us with
  | nil => intro st u hu; exact absurd hu (List.not_mem_nil u)
  | cons u0 rest ih =>
    intro st u hu hd hfs hv
    rcases List.mem_cons.mp hu with rfl | hu'
    · -- head: all other branches of the trichotomy are impossible
      rcases procUrl_trichotomy env d st u with ⟨hmem, _⟩ | ⟨_, hp, _⟩
        | ⟨_, _, hfb, _⟩ | ⟨_, _, _, heq⟩
      · exact absurd hmem hd
      · exact absurd hp hfs
      · have := hv u (List.mem_cons_self u rest) rfl
        rw [this] at hfb
        exact absurd hfb (by simp)
      · obtain ⟨t, ht⟩ := runGo_netlog_mono env d rest (procUrl env d true st u)
        simp only [runGo_cons]
        rw [ht, heq]
        simp
    · -- in the tail: one step preserves the hypotheses
      have hv' : ∀ v ∈ rest, extract_bill_id_from_url v = extract_bill_id_from_url u →
          fetchBad (env.fetch v) = true :=
        fun v hvr => hv v (List.mem_cons_of_mem u0 hvr)
      rcases procUrl_trichotomy env d st u0 with ⟨_, heq⟩ | ⟨_, _, heq⟩
        | ⟨_, hp0, hfb0, heq⟩ | ⟨_, _, _, heq⟩
      · exact ih (procUrl env d true st u0) u hu' hd (by rw [heq]; exact hfs) hv'
      · exact ih (procUrl env d true st u0) u hu' hd (by rw [heq]; exact hfs) hv'
      · refine ih (procUrl env d true st u0) u hu' hd ?_ hv'
        rw [heq]
        intro hc
        rcases List.mem_cons.mp hc with hc' | hc'
        · have h0u : extract_bill_id_from_url u0 = extract_bill_id_from_url u :=
            filePath_inj hc'.symm
          have := hv u0 (List.mem_cons_self u0 rest) h0u
          rw [this] at hfb0
          exact absurd hfb0 (by simp)
        · exact hfs hc'
      · exact ih (procUrl env d true st u0) u hu' hd (by rw [heq]; exact hfs) hv'

/-! ### Claim theorems -/

theorem digitChar_good (dg : Nat) (hd : dg < 10) : goodIdChar (digitChar dg) = true := by
  interval_cases dg <;> decide

theorem natDigsGo_good : ∀ (fuel n : Nat), ∀ c ∈ natDigsGo fuel n, goodIdChar c = true := by
  intro fuel
  induction fuel with
  | zero => intro n c hc; exact absurd hc (List.not_mem_nil c)
  | succ f ih =>
    intro n c hc
    by_cases hn : n < 10
    · simp only [natDigsGo, if_pos hn] at hc
      have hcc : c = digitChar n := by simpa using hc
      rw [hcc]
      exact digitChar_good n hn
    · simp only [natDigsGo, if_neg hn] at hc
      rcases List.mem_append.mp hc with hc' | hc'
      · exact ih (n / 10) c hc'
      · have hcc : c = digitChar (n % 10) := by simpa using hc'
        rw [hcc]
        exact digitChar_good (n % 10) (Nat.mod_lt n (by omega))

theorem mkBillId_good (congress : Str) (hc : ∀ c ∈ congress, goodIdChar c = true)
    (bt v : Str) (hbt : bt ∈ bill_types) (hv : v ∈ bill_versions) (n : Nat) :
    ∀ c ∈ mkBillId congress bt n v, goodIdChar c = true := by
  have hbt' : ∀ c ∈ bt, goodIdChar c = true :=
    (by decide : ∀ x ∈ bill_types, ∀ c ∈ x, goodIdChar c = true) bt hbt
  have hv' : ∀ c ∈ v, goodIdChar c = true :=
    (by decide : ∀ x ∈ bill_versions, ∀ c ∈ x, goodIdChar c = true) v hv
  simp only [mkBillId, List.forall_mem_append]
  exact ⟨⟨⟨⟨by decide, hc⟩, hbt'⟩, natDigsGo_good (n + 1) n⟩, hv'⟩

theorem mkBillId_ne_nil (congress bt : Str) (n : Nat) (v : Str) :
    mkBillId congress bt n v ≠ [] := by
  simp [mkBillId]

/-- Claim C1: with skip-existing enabled, rerunning
`download_bills_from_urls` with the same URL list against the same
(deterministic) network adds no entry to the ledger, and issues no fetch
for any URL whose identifier is already in the completed set loaded at
the second run's start. -/
theorem claim_c1 (env : Env) (fs0 : List Str) (L0 : List LedgerEntry) (urls : List Str) :
    (download_bills_from_urls env
        (download_bills_from_urls env fs0 L0 urls true).fs
        (download_bills_from_urls env fs0 L0 urls true).results urls true).results
      = (download_bills_from_urls env fs0 L0 urls true).results
    ∧ ∀ u ∈ urls,
        extract_bill_id_from_url u ∈
            (download_bills_from_urls env fs0 L0 urls true).results.map LedgerEntry.bill_id →
          u ∉ (download_bills_from_urls env
              (download_bills_from_urls env fs0 L0 urls true).fs
              (download_bills_from_urls env fs0 L0 urls true).results urls true).netlog := by
  have hcond : ∀ u ∈ urls,
      extract_bill_id_from_url u ∈
          (download_bills_from_urls env fs0 L0 urls true).results.map LedgerEntry.bill_id
        ∨ (fetchBad (env.fetch u) = true
            ∧ filePath (extract_bill_id_from_url u) pdfF ∉
                (download_bills_from_urls env fs0 L0 urls true).fs) := by
    intro u hu
    by_cases hmem : extract_bill_id_from_url u ∈
        (download_bills_from_urls env fs0 L0 urls true).results.map LedgerEntry.bill_id
    · exact Or.inl hmem
    · exact Or.inr (runGo_fail env (L0.map LedgerEntry.bill_id) urls ⟨L0, fs0, [], []⟩
        (fun b hb => hb) u hu hmem)
  constructor
  · exact (runGo_stable env
      ((download_bills_from_urls env fs0 L0 urls true).results.map LedgerEntry.bill_id)
      urls
      ⟨(download_bills_from_urls env fs0 L0 urls true).results,
        (download_bills_from_urls env fs0 L0 urls true).fs, [], []⟩ hcond).1
  · intro u hu hmem hin
    rcases runGo_netlog env
        ((download_bills_from_urls env fs0 L0 urls true).results.map LedgerEntry.bill_id)
        urls
        ⟨(download_bills_from_urls env fs0 L0 urls true).results,
          (download_bills_from_urls env fs0 L0 urls true).fs, [], []⟩ u hin with h | ⟨_, hnot⟩
    · exact absurd h (List.not_mem_nil u)
    · exact hnot hmem

/-- Claim C2: for every candidate identifier — collection rendered from
characters inert for URL parsing (digits in particular are), sub-type in
the closed `bill_types` set, any sequence number, version in the closed
`bill_versions` set — extracting the identifier back out of the locator
built by `generate_bill_urls` returns exactly the identifier. -/
theorem claim_c2 (congress : Str) (hc : ∀ c ∈ congress, goodIdChar c = true)
    (billType version : Str) (hbt : billType ∈ bill_types)
    (hv : version ∈ bill_versions) (number : Nat) :
    extract_bill_id_from_url (billPdfUrl (mkBillId congress billType number version))
      = mkBillId congress billType number version :=
  extract_roundtrip (mkBillId congress billType number version)
    (mkBillId_good congress hc billType version hbt hv number)
    (mkBillId_ne_nil congress billType number version)

/-- Claim C2 witness at the spec's own example identifier. -/
theorem claim_c2_witness :
    extract_bill_id_from_url (billPdfUrl (mkBillId "118".data "hr".data 1 "ih".data))
      = mkBillId "118".data "hr".data 1 "ih".data :=
  claim_c2 "118".data (by decide) "hr".data "ih".data (by decide) (by decide) 1

/-- Claim C3: the probe is valid exactly on status 200 + pdf content
type + `%PDF-` signature, and classifies the failure cases as the spec
says (wrong content type, malformed body, not found, transport error
carrying the message). -/
theorem claim_c3 (inp : Except Str Response) :
    ((validate_url inp).1 = true ↔
        ∃ r, inp = .ok r ∧ r.status = 200
          ∧ containsSub "application/pdf".data (lowerStr r.contentType) = true
          ∧ r.body.take 5 = pdfSig)
  ∧ (∀ r, inp = .ok r → r.status = 200 →
        ¬ containsSub "application/pdf".data (lowerStr r.contentType) = true →
        validate_url inp = (false, msgWrongCt (lowerStr r.contentType)))
  ∧ (∀ r, inp = .ok r → r.status = 200 →
        containsSub "application/pdf".data (lowerStr r.contentType) = true →
        r.body.take 5 ≠ pdfSig →
        validate_url inp = (false, msgNotValidPdf))
  ∧ (∀ r, inp = .ok r → r.status = 404 → validate_url inp = (false, msgNotFound))
  ∧ (∀ m, inp = .error m → validate_url inp = (false, msgTransport m)) := by
  refine ⟨?_, ?_, ?_, ?_, ?_⟩
  · cases inp with
    | error m => simp [validate_url]
    | ok r =>
      by_cases h200 : r.status = 200
      · by_cases hct : containsSub "application/pdf".data (lowerStr r.contentType) = true
        · by_cases hsig : r.body.take 5 = pdfSig
          · simp [validate_url, h200, hct, hsig]
          · simp [validate_url, h200, hct, hsig]
        · simp [validate_url, h200, hct]
      · by_cases h404 : r.status = 404
        · simp [validate_url, h200, h404]
        · simp [validate_url, h200, h404]
  · intro r hr h200 hct
    subst hr
    simp [validate_url, h200, hct]
  · intro r hr h200 hct hsig
    subst hr
    simp [validate_url, h200, hct, hsig]
  · intro r hr h404
    subst hr
    have h200 : ¬ r.status = 200 := by omega
    simp [validate_url, h200, h404]
  · intro m hm
    subst hm
    rfl

/-- Claim C3 witness: one concrete response per classification branch. -/
theorem claim_c3_witness :
    (validate_url (.ok ⟨200, "application/pdf".data, [37, 80, 68, 70, 45, 49]⟩)).1 = true
  ∧ validate_url (.ok ⟨200, "text/html".data, [37, 80, 68, 70, 45]⟩)
      = (false, msgWrongCt "text/html".data)
  ∧ validate_url (.ok ⟨200, "application/pdf".data, [60, 104, 116, 109, 108]⟩)
      = (false, msgNotValidPdf)
  ∧ validate_url (.ok ⟨404, "text/html".data, []⟩) = (false, msgNotFound)
  ∧ validate_url (.error "timeout".data) = (false, msgTransport "timeout".data) := by
  refine ⟨?_, ?_, ?_, ?_, ?_⟩
  · exact (claim_c3 (.ok ⟨200, "application/pdf".data, [37, 80, 68, 70, 45, 49]⟩)).1.mpr
      ⟨_, rfl, by decide, by decide, by decide⟩
  · exact (claim_c3 (.ok ⟨200, "text/html".data, [37, 80, 68, 70, 45]⟩)).2.1
      _ rfl rfl (by decide)
  · exact (claim_c3 (.ok ⟨200, "application/pdf".data, [60, 104, 116, 109, 108]⟩)).2.2.1
      _ rfl rfl (by decide) (by decide)
  · exact (claim_c3 (.ok ⟨404, "text/html".data, []⟩)).2.2.2.1 _ rfl rfl
  · exact (claim_c3 (.error "timeout".data)).2.2.2.2 _ rfl

/-- Claim C1 witness: a concrete successful run followed by a rerun. -/
theorem claim_c1_witness :
    (download_bills_from_urls envOkFetch
        (download_bills_from_urls envOkFetch [] [] [u0] true).fs
        (download_bills_from_urls envOkFetch [] [] [u0] true).results [u0] true).results
      = (download_bills_from_urls envOkFetch [] [] [u0] true).results
    ∧ u0 ∉ (download_bills_from_urls envOkFetch
        (download_bills_from_urls envOkFetch [] [] [u0] true).fs
        (download_bills_from_urls envOkFetch [] [] [u0] true).results [u0] true).netlog :=
  ⟨(claim_c1 envOkFetch [] [] [u0]).1,
   (claim_c1 envOkFetch [] [] [u0]).2 u0 (by decide) (by decide)⟩

/-- Claim C4 counterexample: processing the same URL twice in one run
(with skip-existing enabled, starting from an empty ledger) records the
same identifier twice, because `downloaded_bills` is never refreshed
inside the loop and the second download short-circuits on the file
written by the first. -/
theorem claim_c4_counterexample :
    ¬ ((download_bills_from_urls envOkFetch [] [] [u0, u0] true).results.map
        LedgerEntry.bill_id).Nodup := by decide

/-- Claim C4 amended: with skip-existing enabled, a duplicate-free
starting ledger, and pairwise-distinct extracted identifiers among the
URLs of the run, the ledger stays free of duplicate identifiers. -/
theorem claim_c4_amended (env : Env) (fs0 : List Str) (L0 : List LedgerEntry)
    (urls : List Str) (hurls : (urls.map extract_bill_id_from_url).Nodup)
    (hL0 : (L0.map LedgerEntry.bill_id).Nodup) :
    ((download_bills_from_urls env fs0 L0 urls true).results.map
        LedgerEntry.bill_id).Nodup :=
  runGo_nodup env (L0.map LedgerEntry.bill_id) urls ⟨L0, fs0, [], []⟩ hurls hL0
    (fun u _ => em (extract_bill_id_from_url u ∈ L0.map LedgerEntry.bill_id))

/-- Claim C4 amended witness. -/
theorem claim_c4_witness :
    ((download_bills_from_urls envOkFetch [] [] [u0] true).results.map
        LedgerEntry.bill_id).Nodup :=
  claim_c4_amended envOkFetch [] [] [u0] (by decide) (by decide)

/-- Every URL `generate_bill_urls` emits was probe-confirmed by
`validate_url`. -/
theorem generate_bill_urls_valid (env : Env) (congress bt : Str) (a b : Nat) :
    ∀ u ∈ generate_bill_urls env congress bt a b,
      (validate_url (env.probe u)).1 = true := by
  intro u hu
  simp only [generate_bill_urls, List.mem_flatMap, List.mem_filterMap] at hu
  obtain ⟨n, _, v, _, hif⟩ := hu
  by_cases hval :
      (validate_url (env.probe (billPdfUrl (mkBillId congress bt n v)))).1 = true
  · rw [if_pos hval] at hif
    injection hif with hif'
    rw [← hif']
    exact hval
  · rw [if_neg hval] at hif
    exact absurd hif (by simp)

/-- Claim C5 counterexample: in direct-URL mode no probe happens at all.
`envOkFetch`'s probe answers 404 to every request, so `validate_url`
never returns valid for any locator — in particular not for the
processed URL nor for the derived pdf locator of the recorded
identifier — yet the identifier is recorded on fetch success alone. -/
theorem claim_c5_counterexample :
    (download_bills_from_urls envOkFetch [] [] [u0] true).results = [mkEntry "a".data]
  ∧ (validate_url (envOkFetch.probe u0)).1 = false
  ∧ (validate_url (envOkFetch.probe (billPdfUrl "a".data))).1 = false := by decide

/-- Claim C5 amended: (i) in enumeration mode every emitted URL was
probe-confirmed, (ii) every entry a run over enumerated URLs adds to the
ledger stems from a probe-confirmed URL, and (iii) a candidate whose
fetches all fail is absent from the completed set after the run and is
re-attempted (fetched again) by the next run. -/
theorem claim_c5_amended :
    (∀ (env : Env) (congress bt : Str) (a b : Nat),
        ∀ u ∈ generate_bill_urls env congress bt a b,
          (validate_url (env.probe u)).1 = true)
  ∧ (∀ (env : Env) (congress bt : Str) (a b : Nat) (fs0 : List Str)
        (L0 : List LedgerEntry),
        ∀ e ∈ (download_bills_from_urls env fs0 L0
                  (generate_bill_urls env congress bt a b) true).results,
          e ∈ L0 ∨ ∃ u, u ∈ generate_bill_urls env congress bt a b
            ∧ (validate_url (env.probe u)).1 = true
            ∧ e.bill_id = extract_bill_id_from_url u)
  ∧ (∀ (env : Env) (fs0 : List Str) (L0 : List LedgerEntry) (urls : List Str) (u : Str),
        u ∈ urls →
        extract_bill_id_from_url u ∉ L0.map LedgerEntry.bill_id →
        filePath (extract_bill_id_from_url u) pdfF ∉ fs0 →
        (∀ v ∈ urls, extract_bill_id_from_url v = extract_bill_id_from_url u →
            fetchBad (env.fetch v) = true) →
          extract_bill_id_from_url u ∉
              (download_bills_from_urls env fs0 L0 urls true).results.map
                LedgerEntry.bill_id
            ∧ u ∈ (download_bills_from_urls env
                (download_bills_from_urls env fs0 L0 urls true).fs
                (download_bills_from_urls env fs0 L0 urls true).results urls true).netlog) := by
  refine ⟨fun env congress bt a b => generate_bill_urls_valid env congress bt a b,
    ?_, ?_⟩
  · intro env congress bt a b fs0 L0 e he
    obtain ⟨t, h1, h2⟩ := runGo_appended env (L0.map LedgerEntry.bill_id)
      (generate_bill_urls env congress bt a b) ⟨L0, fs0, [], []⟩
    have h1' : (download_bills_from_urls env fs0 L0
        (generate_bill_urls env congress bt a b) true).results = L0 ++ t := h1
    rw [h1'] at he
    rcases List.mem_append.mp he with hL | ht
    · exact Or.inl hL
    · obtain ⟨u, hu, _, he'⟩ := h2 e ht
      refine Or.inr ⟨u, hu, generate_bill_urls_valid env congress bt a b u hu, ?_⟩
      rw [he']
      rfl
  · intro env fs0 L0 urls u hu hld hfs hv
    have hmain := runGo_failed_id env (L0.map LedgerEntry.bill_id) urls
      ⟨L0, fs0, [], []⟩ (extract_bill_id_from_url u) hld hfs hv
    refine ⟨hmain.1, ?_⟩
    exact runGo_retries env
      ((download_bills_from_urls env fs0 L0 urls true).results.map LedgerEntry.bill_id)
      urls
      ⟨(download_bills_from_urls env fs0 L0 urls true).results,
        (download_bills_from_urls env fs0 L0 urls true).fs, [], []⟩
      u hu hmain.1 hmain.2 hv

/-- Claim C5 amended witness: a concrete always-failing candidate is
absent from the completed set and re-fetched on the rerun. -/
theorem claim_c5_witness :
    extract_bill_id_from_url u0 ∉
        (download_bills_from_urls envAllFail [] [] [u0] true).results.map
          LedgerEntry.bill_id
      ∧ u0 ∈ (download_bills_from_urls envAllFail
          (download_bills_from_urls envAllFail [] [] [u0] true).fs
          (download_bills_from_urls envAllFail [] [] [u0] true).results [u0] true).netlog :=
  claim_c5_amended.2.2 envAllFail [] [] [u0] u0 (by decide) (by decide) (by decide)
    (fun v _ _ => rfl)

/-- Claim C6 counterexample: `save_progress` opens the file in mode
`'w'`, which truncates before writing, so rewriting even the same text
`"[]"` passes through the intermediate state `"["` (and `""`), which is
neither the old nor the new document — the overwrite is not atomic. -/
theorem claim_c6_counterexample : ¬ atomicOverwrite "[]".data "[]".data := by
  intro h
  have h1 : ("[".data : Str) ∈ save_progress_states "[]".data := by decide
  rcases h "[".data h1 with h' | h' <;> exact absurd h' (by decide)

/-- Claim C6 amended: every `save_progress` call in the pipeline passes
the complete accumulated entry list (never a delta) — each saved list is
a prefix of the final ledger and the last save equals it — and the
overwrite does write the whole new document; but it is not atomic: for
any nonempty old and new text some observable intermediate state differs
from both. -/
theorem claim_c6_amended :
    (∀ (env : Env) (fs0 : List Str) (L0 : List LedgerEntry) (urls : List Str),
        (∀ s ∈ (download_bills_from_urls env fs0 L0 urls true).savelog,
            ∃ k, k ≤ (download_bills_from_urls env fs0 L0 urls true).results.length
              ∧ s = (download_bills_from_urls env fs0 L0 urls true).results.take k)
          ∧ ((download_bills_from_urls env fs0 L0 urls true).savelog = []
              ∨ (download_bills_from_urls env fs0 L0 urls true).savelog.getLast?
                  = some (download_bills_from_urls env fs0 L0 urls true).results))
  ∧ (∀ newText : Str, (save_progress_states newText).getLast? = some newText)
  ∧ (∀ oldText newText : Str, oldText ≠ [] → newText ≠ [] →
      ¬ atomicOverwrite oldText newText) := by
  refine ⟨?_, ?_, ?_⟩
  · intro env fs0 L0 urls
    exact runGo_savelog env (L0.map LedgerEntry.bill_id) urls ⟨L0, fs0, [], []⟩
      (fun s hs => absurd hs (List.not_mem_nil s)) (Or.inl rfl)
  · intro newText
    simp only [save_progress_states, List.range_succ, List.map_append]
    simp [List.take_length]
  · intro oldText newText hold hnew h
    have h0 : ([] : Str) ∈ save_progress_states newText := by
      simp only [save_progress_states, List.mem_map]
      exact ⟨0, by simp, by simp⟩
    rcases h [] h0 with h' | h'
    · exact hold h'.symm
    · exact hnew h'.symm

/-- Claim C6 amended witness. -/
theorem claim_c6_witness :
    (∀ s ∈ (download_bills_from_urls envOkFetch [] [] [u0] true).savelog,
        ∃ k, k ≤ (download_bills_from_urls envOkFetch [] [] [u0] true).results.length
          ∧ s = (download_bills_from_urls envOkFetch [] [] [u0] true).results.take k)
  ∧ ¬ atomicOverwrite "[]".data "[ ]".data :=
  ⟨(claim_c6_amended.1 envOkFetch [] [] [u0]).1,
   claim_c6_amended.2.2 "[]".data "[ ]".data (by decide) (by decide)⟩

/-- Claim C7: a fetch ending in a transport failure or a 4xx/5xx status
returns `None`, leaves the filesystem unchanged, and in particular
leaves no partial file at the computed target path. -/
theorem claim_c7 (env : Env) (fs : List Str) (url billId fmt : Str) (sk : Bool)
    (hns : ¬(sk = true ∧ filePath billId fmt ∈ fs))
    (hb : fetchBad (env.fetch url) = true) :
    download_bill_from_url env fs url billId fmt sk = ⟨none, fs, [url]⟩
  ∧ (filePath billId fmt ∉ fs →
      filePath billId fmt ∉ (download_bill_from_url env fs url billId fmt sk).fs) := by
  have h := dbfu_eq_fail env fs url billId fmt sk hns hb
  refine ⟨h, fun hn => ?_⟩
  rw [h]
  exact hn

/-- Claim C7 witness: a concrete transport failure. -/
theorem claim_c7_witness :
    download_bill_from_url envAllFail [] u0 "a".data pdfF true = ⟨none, [], [u0]⟩
  ∧ filePath "a".data pdfF ∉ (download_bill_from_url envAllFail [] u0 "a".data pdfF true).fs :=
  ⟨(claim_c7 envAllFail [] u0 "a".data pdfF true (by decide) (by decide)).1,
   (claim_c7 envAllFail [] u0 "a".data pdfF true (by decide) (by decide)).2
     (by decide)⟩

/-- Claim C8 counterexample: a file whose text is valid JSON but not a
list of entry objects (e.g. `[42]`, modelled by `otherJson`) is
malformed ledger content, yet `load_progress` does not return the empty
sequence — it returns the parsed value verbatim — and deriving the
completed set from it raises, so the run does not proceed. -/
theorem claim_c8_counterexample :
    load_progress (some .otherJson) ≠ Loaded.entries []
  ∧ get_downloaded_bills (load_progress (some .otherJson)) = none :=
  ⟨by decide, rfl⟩

/-- Claim C8 amended: for an absent file and for text that fails JSON
parsing (`json.JSONDecodeError`), `load_progress` returns the empty
sequence and the completed set derives cleanly, so the run proceeds as a
fresh run; a well-formed entry list is returned as-is.  (JSON-parseable
content of any other shape is returned verbatim and can crash the run.) -/
theorem claim_c8_amended (es : List LedgerEntry) :
    load_progress none = Loaded.entries []
  ∧ load_progress (some .malformed) = Loaded.entries []
  ∧ load_progress (some (.entriesDoc es)) = Loaded.entries es
  ∧ get_downloaded_bills (load_progress none) = some []
  ∧ get_downloaded_bills (load_progress (some .malformed)) = some [] :=
  ⟨rfl, rfl, rfl, rfl, rfl⟩

/-- Claim C9: the storage path follows the
`<downloads-root>/<identifier>/<format-tag>/<identifier>.<extension>`
template, with `htm` mapped to extension `html` and every other tag used
verbatim; and with skip-if-present set, an existing path is returned
with no network request. -/
theorem claim_c9 (billId fmt : Str) :
    (fmt = htmF →
        filePath billId fmt
          = "downloads".data ++ "/".data ++ billId ++ "/".data ++ fmt ++ "/".data
              ++ billId ++ ".".data ++ "html".data)
  ∧ (fmt ≠ htmF →
        filePath billId fmt
          = "downloads".data ++ "/".data ++ billId ++ "/".data ++ fmt ++ "/".data
              ++ billId ++ ".".data ++ fmt)
  ∧ (∀ (env : Env) (fs : List Str) (url : Str),
        filePath billId fmt ∈ fs →
          download_bill_from_url env fs url billId fmt true
            = ⟨some (filePath billId fmt), fs, []⟩) := by
  refine ⟨?_, ?_, fun env fs url h => dbfu_eq_skip env fs url billId fmt h⟩
  · intro h
    simp only [filePath, extOf, if_pos h, List.append_assoc]
    rfl
  · intro h
    simp only [filePath, extOf, if_neg h, List.append_assoc]
    rfl

/-- Claim C9 witness. -/
theorem claim_c9_witness :
    filePath "a".data pdfF
        = "downloads".data ++ "/".data ++ "a".data ++ "/".data ++ pdfF ++ "/".data
            ++ "a".data ++ ".".data ++ pdfF
  ∧ download_bill_from_url envAllFail [filePath "a".data pdfF] u0 "a".data pdfF true
      = ⟨some (filePath "a".data pdfF), [filePath "a".data pdfF], []⟩ :=
  ⟨(claim_c9 "a".data pdfF).2.1 (by decide),
   (claim_c9 "a".data pdfF).2.2 envAllFail [filePath "a".data pdfF] u0
     (List.mem_singleton.mpr rfl)⟩

/-- Claim C10: identifier extraction is a total function equal to "final
path segment with the last extension stripped", and the direct-URL entry
point uses exactly that string as the skip-check key and the ledger key
(with the storage path derived from it via `filePath`, cf. `mkEntry`). -/
theorem claim_c10 (url : Str) :
    extract_bill_id_from_url url = splitextRoot (lastSegment (urlparsePath url))
  ∧ ∀ (env : Env) (fs0 : List Str) (L0 : List LedgerEntry),
      (extract_bill_id_from_url url ∈ L0.map LedgerEntry.bill_id →
          download_bills_from_urls env fs0 L0 [url] true = ⟨L0, fs0, [], []⟩)
        ∧ ((download_bills_from_urls env fs0 L0 [url] true).results = L0
            ∨ (download_bills_from_urls env fs0 L0 [url] true).results
                = L0 ++ [mkEntry (extract_bill_id_from_url url)]) := by
  constructor
  · simp only [extract_bill_id_from_url, basename_eq_lastSegment]
  · intro env fs0 L0
    constructor
    · intro hmem
      have h := procUrl_skip env (L0.map LedgerEntry.bill_id) ⟨L0, fs0, [], []⟩ url hmem
      simpa only [download_bills_from_urls, runGo_cons, runGo_nil] using h
    · rcases procUrl_trichotomy env (L0.map LedgerEntry.bill_id) ⟨L0, fs0, [], []⟩ url
        with ⟨_, heq⟩ | ⟨_, _, heq⟩ | ⟨_, _, _, heq⟩ | ⟨_, _, _, heq⟩
      · left
        simp only [download_bills_from_urls, runGo_cons, runGo_nil, heq]
      · right
        simp only [download_bills_from_urls, runGo_cons, runGo_nil, heq]
      · right
        simp only [download_bills_from_urls, runGo_cons, runGo_nil, heq]
      · left
        simp only [download_bills_from_urls, runGo_cons, runGo_nil, heq]

/-- Claim C10 witness: a URL whose identifier is already completed is
skipped verbatim. -/
theorem claim_c10_witness :
    extract_bill_id_from_url u0 = splitextRoot (lastSegment (urlparsePath u0))
  ∧ download_bills_from_urls envAllFail [] [mkEntry "a".data] [u0] true
      = ⟨[mkEntry "a".data], [], [], []⟩ :=
  ⟨(claim_c10 u0).1,
   ((claim_c10 u0).2 envAllFail [] [mkEntry "a".data]).1 (by decide)⟩
